import Mathlib

/-!
Verification of the folding / PIOP core of the proof-systems repository.

The development shallowly embeds, over an abstract scalar field:
* the evaluation-leaf algebra and the two folding-expression evaluators of
  `ivc/src/expr_eval.rs` (`process_extended_folding_column`,
  `eval_naive_fexpr`, `eval_naive_fcompat`);
* the keccak trace accumulator `fold` of `optimism/src/keccak/proof.rs`;
* the generic commit / challenge / evaluate / open PIOP `prove` and `verify`
  routines of `optimism/src/keccak/proof.rs` and `msm/src/prover.rs`,
  with the named-column set generalized to a list of columns;
* the MIPS tracer operations `push_row`, `pad_with_row`, `pad_dummy` of
  `optimism/src/mips/trace.rs`.

External collaborators (the arkworks field / polynomial algebra, the
poseidon Fiat-Shamir sponges, and the polynomial-commitment scheme) are
not part of the embedded sources; they are modelled from the spec as
abstract interface data, as marked on each definition.  Rust panics are
modelled by `Option.none`; field values are elements of an abstract
commutative ring.
-/

namespace S2P

/-! ## Evaluation leaves (`folding/src/eval_leaf.rs`, interface per spec section 3 / 4.1) -/

/-- Modelled from the spec: an evaluation leaf is either a single scalar
constant or a whole column of evaluations (`EvalLeaf` of the folding
crate, which is outside `src/`).  The borrowed / owned column distinction
of the Rust type is collapsed into one column case. -/
inductive EvalLeaf (F : Type) where
  | const (c : F)
  | col (evals : List F)
deriving DecidableEq

/-- Modelled from the spec: pointwise application of a unary field map to
a leaf (the value-returning and in-place Rust variants agree pointwise). -/
def EvalLeaf.map {F : Type} (f : F → F) : EvalLeaf F → EvalLeaf F
  | .const c => .const (f c)
  | .col l => .col (l.map f)

/-- Modelled from the spec: leaf addition broadcasts a constant against a
column and combines two columns elementwise. -/
def EvalLeaf.add {F : Type} [Add F] : EvalLeaf F → EvalLeaf F → EvalLeaf F
  | .const a, .const b => .const (a + b)
  | .const a, .col l => .col (l.map (fun x => a + x))
  | .col l, .const b => .col (l.map (fun x => x + b))
  | .col l, .col m => .col (List.zipWith (fun a b => a + b) l m)

/-- Modelled from the spec: leaf subtraction, same broadcasting rules. -/
def EvalLeaf.sub {F : Type} [Sub F] : EvalLeaf F → EvalLeaf F → EvalLeaf F
  | .const a, .const b => .const (a - b)
  | .const a, .col l => .col (l.map (fun x => a - x))
  | .col l, .const b => .col (l.map (fun x => x - b))
  | .col l, .col m => .col (List.zipWith (fun a b => a - b) l m)

/-- Modelled from the spec: leaf multiplication, same broadcasting rules. -/
def EvalLeaf.mul {F : Type} [Mul F] : EvalLeaf F → EvalLeaf F → EvalLeaf F
  | .const a, .const b => .const (a * b)
  | .const a, .col l => .col (l.map (fun x => a * x))
  | .col l, .const b => .col (l.map (fun x => x * b))
  | .col l, .col m => .col (List.zipWith (fun a b => a * b) l m)

/-- Modelled from the spec: the algebra library's dedicated doubling,
semantically multiplication by two (`ark_ff::Field::double`). -/
def fieldDouble {F : Type} [CommRing F] (x : F) : F := 2 * x

/-- Modelled from the spec: the algebra library's dedicated squaring,
semantically the second power (`ark_ff::Field::square`). -/
def fieldSquare {F : Type} [CommRing F] (x : F) : F := x ^ 2

/-! ## Folding expressions (`ivc/src/expr_eval.rs` and the folding crate types it consumes) -/

/-- Row selector of a witness cell: current or next row (`kimchi` `CurrOrNext`). -/
inductive CurrOrNext where
  | curr
  | next
deriving DecidableEq

/-- A witness-cell reference: a column identifier plus a row selector
(`kimchi` `Variable`). -/
structure EVariable (Col : Type) where
  col : Col
  row : CurrOrNext
deriving DecidableEq

/-- The fixed three-element challenge enumeration (`PlonkishChallenge`). -/
inductive PlonkishChallenge where
  | beta
  | gamma
  | jointCombiner
deriving DecidableEq

/-- The extended folding column tags (`folding` crate `ExtendedFoldingColumn`),
the atom alphabet of `FoldingExp`. -/
inductive ExtendedFoldingColumn (F Col : Type) where
  | inner (v : EVariable Col)
  | witnessExtended (i : ℕ)
  | error
  | constant (c : F)
  | challenge (c : PlonkishChallenge)
  | alpha (i : ℕ)
  | selector (s : ℕ)
deriving DecidableEq

/-- The folding expression form (`folding` crate `FoldingExp`). -/
inductive FoldingExp (F Col : Type) where
  | atom (c : ExtendedFoldingColumn F Col)
  | double (e : FoldingExp F Col)
  | square (e : FoldingExp F Col)
  | add (e₁ e₂ : FoldingExp F Col)
  | sub (e₁ e₂ : FoldingExp F Col)
  | mul (e₁ e₂ : FoldingExp F Col)
  | pow (e : FoldingExp F Col) (n : ℕ)
deriving DecidableEq

/-- The extension atoms of the compatible expression form (`ExpExtension`). -/
inductive ExpExtension where
  | u
  | error
  | extendedWitness (i : ℕ)
  | alpha (i : ℕ)
  | selector (s : ℕ)
deriving DecidableEq

/-- The atom alphabet of the compatible expression form
(`FoldingCompatibleExprInner`). -/
inductive FoldingCompatibleExprInner (F Col : Type) where
  | cell (v : EVariable Col)
  | challenge (c : PlonkishChallenge)
  | constant (c : F)
  | extensions (e : ExpExtension)
deriving DecidableEq

/-- The compatible expression form used before folding-specific
linearization (`FoldingCompatibleExpr`). -/
inductive FoldingCompatibleExpr (F Col : Type) where
  | atom (c : FoldingCompatibleExprInner F Col)
  | double (e : FoldingCompatibleExpr F Col)
  | square (e : FoldingCompatibleExpr F Col)
  | add (e₁ e₂ : FoldingCompatibleExpr F Col)
  | sub (e₁ e₂ : FoldingCompatibleExpr F Col)
  | mul (e₁ e₂ : FoldingCompatibleExpr F Col)
  | pow (e : FoldingCompatibleExpr F Col) (n : ℕ)
deriving DecidableEq

/-- The evaluation environment `SimpleEvalEnv` of `ivc/src/expr_eval.rs`:
the witness indexing of the circuit witness is a function from column
identifiers to columns, the extended columns form a partial map (the Rust
`BTreeMap::get` returns an option), the alphas are positional. -/
structure SimpleEvalEnv (F Col : Type) where
  witness : Col → List F
  extended : ℕ → Option (List F)
  alphas : List F
  challenges : PlonkishChallenge → F
  error_vec : List F
  u : F

/-- `SimpleEvalEnv::challenge`: look up one of the three fixed challenges. -/
def SimpleEvalEnv.challenge {F Col : Type} (env : SimpleEvalEnv F Col)
    (c : PlonkishChallenge) : F :=
  env.challenges c

/-- `process_extended_folding_column` of `ivc/src/expr_eval.rs`; the Rust
panics (next-row access, the error tag, a missing extended column or alpha,
any selector) are `none`. -/
def process_extended_folding_column {F Col : Type} (env : SimpleEvalEnv F Col) :
    ExtendedFoldingColumn F Col → Option (EvalLeaf F)
  | .inner ⟨c, .curr⟩ => some (.col (env.witness c))
  | .inner ⟨_, .next⟩ => none
  | .witnessExtended i => (env.extended i).map .col
  | .error => none
  | .constant c => some (.const c)
  | .challenge ch => some (.const (env.challenge ch))
  | .alpha i => (env.alphas.get? i).map .const
  | .selector _ => none

/-- `eval_naive_fexpr` of `ivc/src/expr_eval.rs`: evaluate a `FoldingExp`
against the environment; `Pow` panics, and panics of subexpressions
propagate. -/
def eval_naive_fexpr {F Col : Type} [CommRing F] (env : SimpleEvalEnv F Col) :
    FoldingExp F Col → Option (EvalLeaf F)
  | .atom c => process_extended_folding_column env c
  | .double e => (eval_naive_fexpr env e).map (EvalLeaf.map fieldDouble)
  | .square e => (eval_naive_fexpr env e).map (EvalLeaf.map fieldSquare)
  | .add e₁ e₂ =>
    match eval_naive_fexpr env e₁, eval_naive_fexpr env e₂ with
    | some a, some b => some (a.add b)
    | _, _ => none
  | .sub e₁ e₂ =>
    match eval_naive_fexpr env e₁, eval_naive_fexpr env e₂ with
    | some a, some b => some (a.sub b)
    | _, _ => none
  | .mul e₁ e₂ =>
    match eval_naive_fexpr env e₁, eval_naive_fexpr env e₂ with
    | some a, some b => some (a.mul b)
    | _, _ => none
  | .pow _ _ => none

/-- `eval_naive_fcompat` of `ivc/src/expr_eval.rs`: evaluate a
`FoldingCompatibleExpr`; the extension atom `U` yields the homogenization
scalar, `Error` yields the error column, selectors and `Pow` panic. -/
def eval_naive_fcompat {F Col : Type} [CommRing F] (env : SimpleEvalEnv F Col) :
    FoldingCompatibleExpr F Col → Option (EvalLeaf F)
  | .atom (.cell ⟨c, .curr⟩) => some (.col (env.witness c))
  | .atom (.cell ⟨_, .next⟩) => none
  | .atom (.challenge ch) => some (.const (env.challenge ch))
  | .atom (.constant c) => some (.const c)
  | .atom (.extensions .u) => some (.const env.u)
  | .atom (.extensions .error) => some (.col env.error_vec)
  | .atom (.extensions (.extendedWitness i)) => (env.extended i).map .col
  | .atom (.extensions (.alpha i)) => (env.alphas.get? i).map .const
  | .atom (.extensions (.selector _)) => none
  | .double e => (eval_naive_fcompat env e).map (EvalLeaf.map fieldDouble)
  | .square e => (eval_naive_fcompat env e).map (EvalLeaf.map fieldSquare)
  | .add e₁ e₂ =>
    match eval_naive_fcompat env e₁, eval_naive_fcompat env e₂ with
    | some a, some b => some (a.add b)
    | _, _ => none
  | .sub e₁ e₂ =>
    match eval_naive_fcompat env e₁, eval_naive_fcompat env e₂ with
    | some a, some b => some (a.sub b)
    | _, _ => none
  | .mul e₁ e₂ =>
    match eval_naive_fcompat env e₁, eval_naive_fcompat env e₂ with
    | some a, some b => some (a.mul b)
    | _, _ => none
  | .pow _ _ => none

/-- The canonical atom translation between the two expression forms:
each `ExtendedFoldingColumn` tag has exactly one compatible-form
counterpart. -/
def toCompatAtom {F Col : Type} :
    ExtendedFoldingColumn F Col → FoldingCompatibleExprInner F Col
  | .inner v => .cell v
  | .witnessExtended i => .extensions (.extendedWitness i)
  | .error => .extensions .error
  | .constant c => .constant c
  | .challenge c => .challenge c
  | .alpha i => .extensions (.alpha i)
  | .selector s => .extensions (.selector s)

/-- The structural translation of a `FoldingExp` into the compatible form;
an expression is representable in both forms exactly when it is in the
image of this map. -/
def toCompat {F Col : Type} : FoldingExp F Col → FoldingCompatibleExpr F Col
  | .atom c => .atom (toCompatAtom c)
  | .double e => .double (toCompat e)
  | .square e => .square (toCompat e)
  | .add e₁ e₂ => .add (toCompat e₁) (toCompat e₂)
  | .sub e₁ e₂ => .sub (toCompat e₁) (toCompat e₂)
  | .mul e₁ e₂ => .mul (toCompat e₁) (toCompat e₂)
  | .pow e n => .pow (toCompat e) n

/-- Does a `FoldingExp` contain the distinguished error-column atom? -/
def FoldingExp.hasError {F Col : Type} : FoldingExp F Col → Bool
  | .atom .error => true
  | .atom _ => false
  | .double e => e.hasError
  | .square e => e.hasError
  | .add e₁ e₂ => e₁.hasError || e₂.hasError
  | .sub e₁ e₂ => e₁.hasError || e₂.hasError
  | .mul e₁ e₂ => e₁.hasError || e₂.hasError
  | .pow e _ => e.hasError

/-- Does a `FoldingExp` contain a `Pow` node, a next-row witness access,
or a selector atom (the unsupported shapes of spec section 4.2)? -/
def FoldingExp.hasUnsupported {F Col : Type} : FoldingExp F Col → Bool
  | .atom (.inner ⟨_, .next⟩) => true
  | .atom (.selector _) => true
  | .atom _ => false
  | .double e => e.hasUnsupported
  | .square e => e.hasUnsupported
  | .add e₁ e₂ => e₁.hasUnsupported || e₂.hasUnsupported
  | .sub e₁ e₂ => e₁.hasUnsupported || e₂.hasUnsupported
  | .mul e₁ e₂ => e₁.hasUnsupported || e₂.hasUnsupported
  | .pow _ _ => true

/-- Does a `FoldingCompatibleExpr` contain a `Pow` node, a next-row
witness access, or a selector atom? -/
def FoldingCompatibleExpr.hasUnsupported {F Col : Type} :
    FoldingCompatibleExpr F Col → Bool
  | .atom (.cell ⟨_, .next⟩) => true
  | .atom (.extensions (.selector _)) => true
  | .atom _ => false
  | .double e => e.hasUnsupported
  | .square e => e.hasUnsupported
  | .add e₁ e₂ => e₁.hasUnsupported || e₂.hasUnsupported
  | .sub e₁ e₂ => e₁.hasUnsupported || e₂.hasUnsupported
  | .mul e₁ e₂ => e₁.hasUnsupported || e₂.hasUnsupported
  | .pow _ _ => true


/-! ## Lemmas about the two evaluators -/

lemma eval_fexpr_unsupported_none {F Col : Type} [CommRing F] (env : SimpleEvalEnv F Col) :
    ∀ e : FoldingExp F Col, e.hasUnsupported = true → eval_naive_fexpr env e = none := by
  intro e
  induction e with
  | atom c =>
    cases c with
    | inner v =>
      obtain ⟨cl, row⟩ := v
      cases row with
      | curr => intro h; simp [FoldingExp.hasUnsupported] at h
      | next => intro _; rfl
    | witnessExtended i => intro h; simp [FoldingExp.hasUnsupported] at h
    | error => intro h; simp [FoldingExp.hasUnsupported] at h
    | constant c => intro h; simp [FoldingExp.hasUnsupported] at h
    | challenge c => intro h; simp [FoldingExp.hasUnsupported] at h
    | alpha i => intro h; simp [FoldingExp.hasUnsupported] at h
    | selector s => intro _; rfl
  | double e ih =>
    intro h
    rw [FoldingExp.hasUnsupported] at h
    simp [eval_naive_fexpr, ih h]
  | square e ih =>
    intro h
    rw [FoldingExp.hasUnsupported] at h
    simp [eval_naive_fexpr, ih h]
  | add e₁ e₂ ih₁ ih₂ =>
    intro h
    rw [FoldingExp.hasUnsupported, Bool.or_eq_true] at h
    rcases h with h | h
    · simp [eval_naive_fexpr, ih₁ h]
    · cases hv : eval_naive_fexpr env e₁ <;> simp [eval_naive_fexpr, hv, ih₂ h]
  | sub e₁ e₂ ih₁ ih₂ =>
    intro h
    rw [FoldingExp.hasUnsupported, Bool.or_eq_true] at h
    rcases h with h | h
    · simp [eval_naive_fexpr, ih₁ h]
    · cases hv : eval_naive_fexpr env e₁ <;> simp [eval_naive_fexpr, hv, ih₂ h]
  | mul e₁ e₂ ih₁ ih₂ =>
    intro h
    rw [FoldingExp.hasUnsupported, Bool.or_eq_true] at h
    rcases h with h | h
    · simp [eval_naive_fexpr, ih₁ h]
    · cases hv : eval_naive_fexpr env e₁ <;> simp [eval_naive_fexpr, hv, ih₂ h]
  | pow e n ih => intro _; rfl

lemma eval_fcompat_unsupported_none {F Col : Type} [CommRing F] (env : SimpleEvalEnv F Col) :
    ∀ e : FoldingCompatibleExpr F Col, e.hasUnsupported = true →
      eval_naive_fcompat env e = none := by
  intro e
  induction e with
  | atom c =>
    cases c with
    | cell v =>
      obtain ⟨cl, row⟩ := v
      cases row with
      | curr => intro h; simp [FoldingCompatibleExpr.hasUnsupported] at h
      | next => intro _; rfl
    | challenge c => intro h; simp [FoldingCompatibleExpr.hasUnsupported] at h
    | constant c => intro h; simp [FoldingCompatibleExpr.hasUnsupported] at h
    | extensions ext =>
      cases ext with
      | u => intro h; simp [FoldingCompatibleExpr.hasUnsupported] at h
      | error => intro h; simp [FoldingCompatibleExpr.hasUnsupported] at h
      | extendedWitness i => intro h; simp [FoldingCompatibleExpr.hasUnsupported] at h
      | alpha i => intro h; simp [FoldingCompatibleExpr.hasUnsupported] at h
      | selector s => intro _; rfl
  | double e ih =>
    intro h
    rw [FoldingCompatibleExpr.hasUnsupported] at h
    simp [eval_naive_fcompat, ih h]
  | square e ih =>
    intro h
    rw [FoldingCompatibleExpr.hasUnsupported] at h
    simp [eval_naive_fcompat, ih h]
  | add e₁ e₂ ih₁ ih₂ =>
    intro h
    rw [FoldingCompatibleExpr.hasUnsupported, Bool.or_eq_true] at h
    rcases h with h | h
    · simp [eval_naive_fcompat, ih₁ h]
    · cases hv : eval_naive_fcompat env e₁ <;> simp [eval_naive_fcompat, hv, ih₂ h]
  | sub e₁ e₂ ih₁ ih₂ =>
    intro h
    rw [FoldingCompatibleExpr.hasUnsupported, Bool.or_eq_true] at h
    rcases h with h | h
    · simp [eval_naive_fcompat, ih₁ h]
    · cases hv : eval_naive_fcompat env e₁ <;> simp [eval_naive_fcompat, hv, ih₂ h]
  | mul e₁ e₂ ih₁ ih₂ =>
    intro h
    rw [FoldingCompatibleExpr.hasUnsupported, Bool.or_eq_true] at h
    rcases h with h | h
    · simp [eval_naive_fcompat, ih₁ h]
    · cases hv : eval_naive_fcompat env e₁ <;> simp [eval_naive_fcompat, hv, ih₂ h]
  | pow e n ih => intro _; rfl

lemma eval_fexpr_eq_fcompat_of_noError {F Col : Type} [CommRing F]
    (env : SimpleEvalEnv F Col) :
    ∀ e : FoldingExp F Col, e.hasError = false →
      eval_naive_fexpr env e = eval_naive_fcompat env (toCompat e) := by
  intro e
  induction e with
  | atom c =>
    cases c with
    | inner v =>
      obtain ⟨cl, row⟩ := v
      cases row with
      | curr => intro _; rfl
      | next => intro _; rfl
    | witnessExtended i => intro _; rfl
    | error => intro h; simp [FoldingExp.hasError] at h
    | constant c => intro _; rfl
    | challenge c => intro _; rfl
    | alpha i => intro _; rfl
    | selector s => intro _; rfl
  | double e ih =>
    intro h
    rw [FoldingExp.hasError] at h
    simp [eval_naive_fexpr, toCompat, eval_naive_fcompat, ih h]
  | square e ih =>
    intro h
    rw [FoldingExp.hasError] at h
    simp [eval_naive_fexpr, toCompat, eval_naive_fcompat, ih h]
  | add e₁ e₂ ih₁ ih₂ =>
    intro h
    rw [FoldingExp.hasError, Bool.or_eq_false_iff] at h
    simp only [eval_naive_fexpr, toCompat, eval_naive_fcompat, ih₁ h.1, ih₂ h.2]
  | sub e₁ e₂ ih₁ ih₂ =>
    intro h
    rw [FoldingExp.hasError, Bool.or_eq_false_iff] at h
    simp only [eval_naive_fexpr, toCompat, eval_naive_fcompat, ih₁ h.1, ih₂ h.2]
  | mul e₁ e₂ ih₁ ih₂ =>
    intro h
    rw [FoldingExp.hasError, Bool.or_eq_false_iff] at h
    simp only [eval_naive_fexpr, toCompat, eval_naive_fcompat, ih₁ h.1, ih₂ h.2]
  | pow e n ih => intro _; rfl

/-- A concrete evaluation environment over the field with five elements,
used to exercise the evaluators on explicit inputs. -/
def envC3 : SimpleEvalEnv (ZMod 5) ℕ where
  witness := fun _ => [1, 2]
  extended := fun i => if i = 0 then some [4, 0] else none
  alphas := [3]
  challenges := fun _ => 2
  error_vec := [3, 1]
  u := 1

/-! ## Claim theorems about the evaluators -/

/-- C3 counterexample: the error-column atom is representable in both
expression forms, yet `eval_naive_fexpr` aborts on it (the Rust panics
with shouldn't-happen) while `eval_naive_fcompat` returns the error
column, so the two entry points do not produce identical results on it. -/
theorem eval_equiv_error_counterexample :
    eval_naive_fexpr envC3 (.atom .error) ≠
      eval_naive_fcompat envC3 (toCompat (.atom .error)) := by
  decide

/-- C3 (amended): for every expression representable in both forms that
does not contain the error-column atom, `eval_naive_fexpr` and
`eval_naive_fcompat` produce identical evaluation results over the same
environment (in particular identical leaves whenever a leaf is produced). -/
theorem eval_naive_fexpr_eq_fcompat {F Col : Type} [CommRing F]
    (env : SimpleEvalEnv F Col) (e : FoldingExp F Col)
    (h : e.hasError = false) :
    eval_naive_fexpr env e = eval_naive_fcompat env (toCompat e) :=
  eval_fexpr_eq_fcompat_of_noError env e h

/-- Witness for the amended C3 statement at a concrete expression mixing
a constant, a witness cell, and an alpha coefficient. -/
theorem eval_naive_fexpr_eq_fcompat_witness :
    FoldingExp.hasError
        (FoldingExp.add (.atom (.constant 2))
          (.mul (.atom (.inner ⟨0, .curr⟩)) (.atom (.alpha 0)))) = false ∧
      eval_naive_fexpr envC3
          (FoldingExp.add (.atom (.constant 2))
            (.mul (.atom (.inner ⟨0, .curr⟩)) (.atom (.alpha 0)))) =
        eval_naive_fcompat envC3
          (toCompat
            (FoldingExp.add (.atom (.constant 2))
              (.mul (.atom (.inner ⟨0, .curr⟩)) (.atom (.alpha 0))))) :=
  ⟨by decide,
    eval_naive_fexpr_eq_fcompat envC3
      (FoldingExp.add (.atom (.constant 2))
        (.mul (.atom (.inner ⟨0, .curr⟩)) (.atom (.alpha 0)))) (by decide)⟩

/-- C4: evaluating an expression that contains a `Pow` node, a next-row
witness-cell access, or a selector reference aborts (yields no leaf) for
both evaluator entry points. -/
theorem eval_unsupported_aborts {F Col : Type} [CommRing F]
    (env : SimpleEvalEnv F Col) :
    (∀ e : FoldingExp F Col, e.hasUnsupported = true →
        eval_naive_fexpr env e = none) ∧
      (∀ e : FoldingCompatibleExpr F Col, e.hasUnsupported = true →
        eval_naive_fcompat env e = none) :=
  ⟨eval_fexpr_unsupported_none env, eval_fcompat_unsupported_none env⟩

/-- Witness for C4: a `Pow` node aborts the folding-expression evaluator
and a selector atom aborts the compatible-form evaluator. -/
theorem eval_unsupported_aborts_witness :
    eval_naive_fexpr envC3 (.pow (.atom (.constant 1)) 2) = none ∧
      eval_naive_fcompat envC3 (.atom (.extensions (.selector 0))) = none :=
  ⟨(eval_unsupported_aborts envC3).1 (.pow (.atom (.constant 1)) 2) (by decide),
    (eval_unsupported_aborts envC3).2 (.atom (.extensions (.selector 0))) (by decide)⟩

/-- C9: the dedicated doubling and squaring maps agree with addition and
multiplication, on scalars and pointwise on both leaf shapes. -/
theorem double_square_leaf {F : Type} [CommRing F] :
    (∀ x : F, fieldDouble x = x + x ∧ fieldSquare x = x * x) ∧
      ∀ l : EvalLeaf F,
        EvalLeaf.map fieldDouble l = l.add l ∧
          EvalLeaf.map fieldSquare l = l.mul l := by
  constructor
  · intro x
    exact ⟨two_mul x, pow_two x⟩
  · intro l
    cases l with
    | const c =>
      exact ⟨congrArg EvalLeaf.const (two_mul c), congrArg EvalLeaf.const (pow_two c)⟩
    | col m =>
      constructor
      · show EvalLeaf.col (m.map fieldDouble) = EvalLeaf.col (List.zipWith _ m m)
        rw [List.zipWith_same]
        exact congrArg EvalLeaf.col (List.map_congr_left fun a _ => two_mul a)
      · show EvalLeaf.col (m.map fieldSquare) = EvalLeaf.col (List.zipWith _ m m)
        rw [List.zipWith_same]
        exact congrArg EvalLeaf.col (List.map_congr_left fun a _ => pow_two a)

/-! ## External algebra, sponge and commitment interfaces (spec sections 1, 6) -/

/-- Modelled from the spec: the external collaborators consumed by the
PIOP and the accumulator, none of which live under `src/`: the radix-2
domain (`interp` interpolates a column of evaluations into coefficients,
`evalAt` evaluates a polynomial at a point, `omega` generates the domain),
the commitment scheme (`commit` for `commit_non_hiding`, `commitEvals`
for `commit_evaluations_non_hiding`), the two Fiat-Shamir oracles
(`qChal` and `qDigest` squeeze a challenge and a digest from the list of
commitments absorbed so far; `sChal` squeezes the n-th scalar challenge
from the list of absorbed scalars), and the endomorphism map `endo`
applied by `ScalarChallenge::to_field`.  Polynomials are coefficient
lists; a sponge state is the ordered list of absorbed values. -/
structure ExtAlgebra (F C σ : Type) where
  interp : List F → List F
  evalAt : List F → F → F
  commit : σ → List F → C
  commitEvals : σ → List F → C
  qChal : List C → F
  qDigest : List C → F
  sChal : List F → ℕ → F
  endo : F → F
  omega : F

/-! ## The keccak trace accumulator (`optimism/src/keccak/proof.rs`, `fold`) -/

/-- The in-place update of one accumulator column by one new column:
every entry in the common range becomes `new + challenge * old`, entries
of the accumulator beyond the new column's length are untouched
(`accumulator.par_iter_mut().zip(inputs.par_iter())`). -/
def foldCol {F : Type} [CommRing F] (c : F) (newCol accCol : List F) : List F :=
  List.zipWith (fun n a => n + c * a) newCol accCol ++ accCol.drop newCol.length

/-- The combination step of `fold`: every accumulator column is updated
in place against the matching input column; accumulator columns beyond
the input batch are untouched. -/
def foldCombine {F : Type} [CommRing F] (c : F) (acc inputs : List (List F)) :
    List (List F) :=
  List.zipWith (fun accCol inCol => foldCol c inCol accCol) acc inputs ++
    acc.drop inputs.length

/-- The absorption loop of `fold`: starting from the freshly seeded
sponge, absorb each commitment in the fixed column order. -/
def foldAbsorb {C : Type} (comms : List C) : List C :=
  comms.foldl (fun s c => s ++ [c]) []

/-- The sponge state of `fold` at the moment the scaling challenge is
squeezed: all commitments to the new input columns have been absorbed. -/
def foldSponge {F C σ : Type} (E : ExtAlgebra F C σ) (srs : σ)
    (inputs : List (List F)) : List C :=
  foldAbsorb (inputs.map (E.commitEvals srs))

/-- The scaling challenge of one `fold` step: squeezed from the sponge
and mapped to the field through the endomorphism coordinates. -/
def foldChallenge {F C σ : Type} (E : ExtAlgebra F C σ) (srs : σ)
    (inputs : List (List F)) : F :=
  E.endo (E.qChal (foldSponge E srs inputs))

/-- `fold` of `optimism/src/keccak/proof.rs`: commit to each new column,
absorb the commitments, squeeze the scaling challenge, then update the
accumulator as `new + challenge * old` entrywise. -/
def fold {F C σ : Type} [CommRing F] (E : ExtAlgebra F C σ) (srs : σ)
    (acc inputs : List (List F)) : List (List F) :=
  foldCombine (foldChallenge E srs inputs) acc inputs

/-! ## The generic PIOP prover and verifier
(`optimism/src/keccak/proof.rs` and `msm/src/prover.rs`, with the named
column set generalized to an ordered list of columns) -/

/-- Modelled from the spec: the data the commitment scheme's `open`
records for the idealized opening proof: the polynomials opened, the two
evaluation points, the two batching challenges and the transcript state
captured just before evaluations were absorbed. -/
structure OpeningPf (F C : Type) where
  polys : List (List F)
  points : List F
  v : F
  u : F
  spongeState : List C
deriving DecidableEq

/-- The proof structure (`KeccakProof` / msm `Proof`): commitments to all
columns, the two evaluation vectors at zeta and zeta-omega, and the
opening proof. -/
structure ProofP (F C : Type) where
  commitments : List C
  zeta_evaluations : List F
  zeta_omega_evaluations : List F
  opening_proof : OpeningPf F C

/-- The batched opening claim handed to the commitment scheme's verifier
(`BatchEvaluationProof`). -/
structure BatchEvalProof (F C : Type) where
  sponge : List C
  evaluations : List (C × F × F)
  evaluation_points : List F
  polyscale : F
  evalscale : F
  opening : OpeningPf F C
  cip : F

/-- The inner Horner combination of one polynomial's evaluations at the
successive points, weighted by powers of the evaluation-batching scalar. -/
def powCombine {F : Type} [CommRing F] (u : F) (row : List F) : F :=
  row.foldr (fun x acc => x + u * acc) 0

/-- Modelled from the spec: `combined_inner_product` of the commitment
scheme: the evaluations of each polynomial are combined across points by
powers of `u`, and across polynomials by powers of `v`. -/
def combined_inner_product {F : Type} [CommRing F] (v u : F)
    (es : List (List F)) : F :=
  (es.map (powCombine u)).foldr (fun x acc => x + v * acc) 0

/-- The interpolated column polynomials of the prover (step 1). -/
def provePolys {F C σ : Type} (E : ExtAlgebra F C σ) (w : List (List F)) :
    List (List F) :=
  w.map E.interp

/-- The column commitments of the prover, in the fixed column order (step 2). -/
def proveCommitments {F C σ : Type} (E : ExtAlgebra F C σ) (srs : σ)
    (w : List (List F)) : List C :=
  (provePolys E w).map (E.commit srs)

/-- The evaluation-point challenge zeta, squeezed after all commitments
have been absorbed (steps 3 and 4). -/
def proveZeta {F C σ : Type} (E : ExtAlgebra F C σ) (srs : σ)
    (w : List (List F)) : F :=
  E.endo (E.qChal (proveCommitments E srs w))

/-- The second evaluation point zeta times the domain generator. -/
def proveZetaOmega {F C σ : Type} [CommRing F] (E : ExtAlgebra F C σ) (srs : σ)
    (w : List (List F)) : F :=
  proveZeta E srs w * E.omega

/-- The evaluations of every column polynomial at zeta (step 5). -/
def proveZetaEvals {F C σ : Type} (E : ExtAlgebra F C σ) (srs : σ)
    (w : List (List F)) : List F :=
  (provePolys E w).map (fun p => E.evalAt p (proveZeta E srs w))

/-- The evaluations of every column polynomial at zeta-omega (step 5). -/
def proveZetaOmegaEvals {F C σ : Type} [CommRing F] (E : ExtAlgebra F C σ)
    (srs : σ) (w : List (List F)) : List F :=
  (provePolys E w).map (fun p => E.evalAt p (proveZetaOmega E srs w))

/-- Interleave two lists pairwise, the order in which the scalar sponge
absorbs the zeta and zeta-omega evaluation of each column. -/
def interleave {F : Type} : List F → List F → List F
  | [], _ => []
  | _, [] => []
  | a :: as, b :: bs => a :: b :: interleave as bs

/-- The scalar-sponge transcript of the prover: the base sponge's digest
followed by every evaluation pair in the fixed column order (step 6). -/
def proveFrAbsorbed {F C σ : Type} [CommRing F] (E : ExtAlgebra F C σ)
    (srs : σ) (w : List (List F)) : List F :=
  E.qDigest (proveCommitments E srs w) ::
    interleave (proveZetaEvals E srs w) (proveZetaOmegaEvals E srs w)

/-- The polynomial-batching challenge, the first scalar squeezed (step 7). -/
def proveV {F C σ : Type} [CommRing F] (E : ExtAlgebra F C σ) (srs : σ)
    (w : List (List F)) : F :=
  E.endo (E.sChal (proveFrAbsorbed E srs w) 0)

/-- The evaluation-batching challenge, the second scalar squeezed (step 7). -/
def proveU {F C σ : Type} [CommRing F] (E : ExtAlgebra F C σ) (srs : σ)
    (w : List (List F)) : F :=
  E.endo (E.sChal (proveFrAbsorbed E srs w) 1)

/-- `prove` of `optimism/src/keccak/proof.rs` and `msm/src/prover.rs`:
interpolate, commit, squeeze zeta, evaluate at zeta and zeta-omega,
squeeze v and u, and open all polynomials at both points with the
transcript state captured before evaluations were absorbed. -/
def prove {F C σ : Type} [CommRing F] (E : ExtAlgebra F C σ) (srs : σ)
    (w : List (List F)) : ProofP F C :=
  { commitments := proveCommitments E srs w
    zeta_evaluations := proveZetaEvals E srs w
    zeta_omega_evaluations := proveZetaOmegaEvals E srs w
    opening_proof :=
      { polys := provePolys E w
        points := [proveZeta E srs w, proveZetaOmega E srs w]
        v := proveV E srs w
        u := proveU E srs w
        spongeState := proveCommitments E srs w } }

/-- The verifier's replay of zeta from the commitments carried in the
proof alone. -/
def verifyZeta {F C σ : Type} (E : ExtAlgebra F C σ) (p : ProofP F C) : F :=
  E.endo (E.qChal p.commitments)

/-- The verifier's second evaluation point. -/
def verifyZetaOmega {F C σ : Type} [CommRing F] (E : ExtAlgebra F C σ)
    (p : ProofP F C) : F :=
  verifyZeta E p * E.omega

/-- The verifier's scalar-sponge transcript, built from the digest of the
replayed base sponge and the evaluation pairs carried in the proof. -/
def verifyFrAbsorbed {F C σ : Type} [CommRing F] (E : ExtAlgebra F C σ)
    (p : ProofP F C) : List F :=
  E.qDigest p.commitments ::
    interleave p.zeta_evaluations p.zeta_omega_evaluations

/-- The verifier's replay of the polynomial-batching challenge v. -/
def verifyV {F C σ : Type} [CommRing F] (E : ExtAlgebra F C σ)
    (p : ProofP F C) : F :=
  E.endo (E.sChal (verifyFrAbsorbed E p) 0)

/-- The verifier's replay of the evaluation-batching challenge u. -/
def verifyU {F C σ : Type} [CommRing F] (E : ExtAlgebra F C σ)
    (p : ProofP F C) : F :=
  E.endo (E.sChal (verifyFrAbsorbed E p) 1)

/-- The per-column evaluation rows the verifier feeds to
`combined_inner_product` (the `es` vector of `verify`). -/
def proofEs {F C : Type} (p : ProofP F C) : List (List F) :=
  List.zipWith (fun a b => [a, b]) p.zeta_evaluations p.zeta_omega_evaluations

/-- The batched opening claim the verifier assembles from the proof: the
replayed transcript state, the commitment and evaluation pairs, the
replayed points and batching challenges, and the combined inner product
computed from the carried evaluations. -/
def verifyBatch {F C σ : Type} [CommRing F] (E : ExtAlgebra F C σ)
    (p : ProofP F C) : BatchEvalProof F C :=
  { sponge := p.commitments
    evaluations :=
      List.zipWith (fun c zz => (c, zz)) p.commitments
        (List.zip p.zeta_evaluations p.zeta_omega_evaluations)
    evaluation_points := [verifyZeta E p, verifyZetaOmega E p]
    polyscale := verifyV E p
    evalscale := verifyU E p
    opening := p.opening_proof
    cip := combined_inner_product (verifyV E p) (verifyU E p) (proofEs p) }

/-- Modelled from the spec: the opening-proof verifier of the idealized
(perfectly binding, complete) commitment scheme: the opened polynomials
must commit to the claimed commitments, the recorded points, batching
challenges and transcript state must match the batch, and the batch's
combined inner product must equal the one recomputed from the opened
polynomials at the recorded points. -/
def openVerify {F C σ : Type} [CommRing F] [DecidableEq F] [DecidableEq C]
    (E : ExtAlgebra F C σ) (srs : σ) (b : BatchEvalProof F C) : Bool :=
  decide (b.opening.polys.map (E.commit srs) = b.evaluations.map Prod.fst) &&
    decide (b.opening.points = b.evaluation_points) &&
    decide (b.opening.v = b.polyscale) &&
    decide (b.opening.u = b.evalscale) &&
    decide (b.opening.spongeState = b.sponge) &&
    decide (b.cip =
      combined_inner_product b.opening.v b.opening.u
        (b.opening.polys.map (fun poly => b.opening.points.map (E.evalAt poly))))

/-- `verify` of `optimism/src/keccak/proof.rs`: replay the transcript
from the proof's commitments and evaluations, rebuild the batched opening
claim, and delegate acceptance to the opening-proof verifier. -/
def verify {F C σ : Type} [CommRing F] [DecidableEq F] [DecidableEq C]
    (E : ExtAlgebra F C σ) (srs : σ) (p : ProofP F C) : Bool :=
  openVerify E srs (verifyBatch E p)

/-! ## Lemmas about fold and the PIOP -/

lemma foldAbsorb_eq {C : Type} (l : List C) : foldAbsorb l = l := by
  have h : ∀ (l s : List C), l.foldl (fun s c => s ++ [c]) s = s ++ l := by
    intro l
    induction l with
    | nil => intro s; simp
    | cons a as ih => intro s; simp [List.foldl, ih]
  simpa [foldAbsorb] using h l []

lemma foldCol_zero {F : Type} [CommRing F] :
    ∀ a b : List F, a.length = b.length → foldCol 0 b a = b := by
  intro a
  induction a with
  | nil =>
    intro b hb
    cases b with
    | nil => rfl
    | cons y ys => simp at hb
  | cons x xs ih =>
    intro b hb
    cases b with
    | nil => simp at hb
    | cons y ys =>
      have hy : y + 0 * x = y := by ring
      show (y + 0 * x) :: foldCol 0 ys xs = y :: ys
      rw [hy, ih ys (by simpa using hb)]

lemma zipWith_map_same {α β γ : Type} (f : β → β → γ) (g h : α → β) (l : List α) :
    List.zipWith f (l.map g) (l.map h) = l.map (fun x => f (g x) (h x)) := by
  induction l with
  | nil => rfl
  | cons a as ih => simp [ih]

lemma map_fst_zipWith_pair {α β : Type} :
    ∀ (l₁ : List α) (l₂ : List β), l₁.length ≤ l₂.length →
      (List.zipWith (fun c zz => (c, zz)) l₁ l₂).map Prod.fst = l₁ := by
  intro l₁
  induction l₁ with
  | nil => intro l₂ _; rfl
  | cons a as ih =>
    intro l₂ h
    cases l₂ with
    | nil => simp at h
    | cons b bs => simp [ih bs (by simpa using h)]

lemma proofEs_prove {F C σ : Type} [CommRing F] (E : ExtAlgebra F C σ) (srs : σ)
    (w : List (List F)) :
    proofEs (prove E srs w) =
      (provePolys E w).map (fun poly =>
        [E.evalAt poly (proveZeta E srs w), E.evalAt poly (proveZetaOmega E srs w)]) := by
  show List.zipWith (fun a b => [a, b])
      ((provePolys E w).map (fun p => E.evalAt p (proveZeta E srs w)))
      ((provePolys E w).map (fun p => E.evalAt p (proveZetaOmega E srs w))) = _
  rw [zipWith_map_same]

/-! ## Claim theorems about fold -/

/-- C5: in the fold operation the scaling challenge is squeezed from a
sponge state that holds exactly the commitments to all new input columns,
absorbed in the fixed column order, and the accumulator combination uses
precisely that challenge; the challenge does not depend on the
accumulator being combined. -/
theorem fold_challenge_transcript {F C σ : Type} [CommRing F]
    (E : ExtAlgebra F C σ) (srs : σ) (acc inputs : List (List F)) :
    foldSponge E srs inputs = inputs.map (E.commitEvals srs) ∧
      fold E srs acc inputs =
        foldCombine (E.endo (E.qChal (inputs.map (E.commitEvals srs)))) acc inputs := by
  refine ⟨foldAbsorb_eq _, ?_⟩
  rw [fold, foldChallenge, foldSponge, foldAbsorb_eq]

/-- C8: folding with a zero scaling challenge discards the accumulator
entirely: the combination step applied with challenge zero returns the
new batch, for every accumulator and batch of matching column shapes. -/
theorem fold_zero_challenge {F : Type} [CommRing F]
    (acc inputs : List (List F))
    (h : List.Forall₂ (fun a b => a.length = b.length) acc inputs) :
    foldCombine 0 acc inputs = inputs := by
  induction h with
  | nil => rfl
  | @cons a b l₁ l₂ hab _ ih =>
    show foldCol 0 b a :: foldCombine 0 l₁ l₂ = b :: l₂
    rw [foldCol_zero a b hab, ih]

/-- Witness for C8 on a concrete two-column accumulator and batch. -/
theorem fold_zero_challenge_witness :
    foldCombine (0 : ZMod 5) [[1, 2], [3]] [[4, 0], [2]] = [[4, 0], [2]] :=
  fold_zero_challenge [[1, 2], [3]] [[4, 0], [2]]
    (List.Forall₂.cons (by decide) (List.Forall₂.cons (by decide) List.Forall₂.nil))

lemma foldCol_getD {F : Type} [CommRing F] (c : F) :
    ∀ (newCol accCol : List F) (j : ℕ), j < newCol.length → j < accCol.length →
      (foldCol c newCol accCol).getD j 0 =
        newCol.getD j 0 + c * accCol.getD j 0 := by
  intro newCol
  induction newCol with
  | nil => intro accCol j hj _; simp at hj
  | cons x xs ih =>
    intro accCol j hj₁ hj₂
    cases accCol with
    | nil => simp at hj₂
    | cons y ys =>
      cases j with
      | zero => rfl
      | succ m =>
        show (foldCol c xs ys).getD m 0 = xs.getD m 0 + c * ys.getD m 0
        exact ih ys m (by simpa using hj₁) (by simpa using hj₂)

lemma foldCombine_getD {F : Type} [CommRing F] (c : F) :
    ∀ (acc inputs : List (List F)) (i : ℕ), i < acc.length → i < inputs.length →
      (foldCombine c acc inputs).getD i [] =
        foldCol c (inputs.getD i []) (acc.getD i []) := by
  intro acc
  induction acc with
  | nil => intro inputs i hi _; simp at hi
  | cons a as ih =>
    intro inputs i hi₁ hi₂
    cases inputs with
    | nil => simp at hi₂
    | cons b bs =>
      cases i with
      | zero => rfl
      | succ m =>
        show (foldCombine c as bs).getD m [] = foldCol c (bs.getD m []) (as.getD m [])
        exact ih bs m (by simpa using hi₁) (by simpa using hi₂)

/-- C2: every accumulator entry is updated as new-plus-scaled-old with
the squeezed scaling challenge, and the concrete two-batch scenario with
all-one then all-two columns folded into a zero accumulator leaves every
entry equal to two plus the second challenge. -/
theorem fold_entry_and_scenario {F C σ : Type} [CommRing F] :
    (∀ (E : ExtAlgebra F C σ) (srs : σ) (acc inputs : List (List F)) (i j : ℕ),
      i < acc.length → i < inputs.length →
      j < (acc.getD i []).length → j < (inputs.getD i []).length →
      ((fold E srs acc inputs).getD i []).getD j 0 =
        (inputs.getD i []).getD j 0 +
          foldChallenge E srs inputs * ((acc.getD i []).getD j 0)) ∧
    (∀ (r r₁ : F) (n : ℕ),
      foldCombine r (foldCombine r₁ [List.replicate n (0 : F)] [List.replicate n 1])
        [List.replicate n 2] = [List.replicate n (2 + r)]) := by
  constructor
  · intro E srs acc inputs i j hi₁ hi₂ hj₁ hj₂
    rw [fold, foldCombine_getD _ acc inputs i hi₁ hi₂,
      foldCol_getD _ (inputs.getD i []) (acc.getD i []) j hj₂ hj₁]
  · intro r r₁ n
    simp [foldCombine, foldCol, List.zipWith_replicate, List.drop_replicate]

/-! ## Claim theorems about the PIOP -/

/-- C1: the prove / verify round trip: for every witness (the ordered
list of named evaluation columns), every commitment setup and every
instantiation of the external algebra, sponge and commitment interfaces,
verifying a proof produced by the prover succeeds. -/
theorem prove_verify_round_trip {F C σ : Type} [CommRing F] [DecidableEq F]
    [DecidableEq C] (E : ExtAlgebra F C σ) (srs : σ) (w : List (List F)) :
    verify E srs (prove E srs w) = true := by
  rw [verify, openVerify]
  simp only [Bool.and_eq_true, decide_eq_true_eq]
  refine ⟨⟨⟨⟨⟨?_, rfl⟩, rfl⟩, rfl⟩, rfl⟩, ?_⟩
  · show (provePolys E w).map (E.commit srs) =
      (List.zipWith (fun c zz => (c, zz)) (proveCommitments E srs w)
        (List.zip (proveZetaEvals E srs w) (proveZetaOmegaEvals E srs w))).map
        Prod.fst
    rw [map_fst_zipWith_pair _ _ (by
      simp [proveCommitments, proveZetaEvals, proveZetaOmegaEvals, List.length_zip])]
    rfl
  · show combined_inner_product (verifyV E (prove E srs w))
          (verifyU E (prove E srs w)) (proofEs (prove E srs w)) =
        combined_inner_product (proveV E srs w) (proveU E srs w)
          ((provePolys E w).map (fun poly =>
            [proveZeta E srs w, proveZetaOmega E srs w].map (E.evalAt poly)))
    rw [proofEs_prove]
    rfl

/-- C6: the verifier reconstructs exactly the prover's challenges zeta,
zeta-omega, v and u from the commitments and evaluations carried in the
proof alone, and delegates final acceptance to the opening-proof
verifier on the batch it assembles, returning a boolean. -/
theorem verify_replays_prover_challenges {F C σ : Type} [CommRing F]
    [DecidableEq F] [DecidableEq C] (E : ExtAlgebra F C σ) (srs : σ)
    (w : List (List F)) :
    verifyZeta E (prove E srs w) = proveZeta E srs w ∧
      verifyZetaOmega E (prove E srs w) = proveZetaOmega E srs w ∧
      verifyV E (prove E srs w) = proveV E srs w ∧
      verifyU E (prove E srs w) = proveU E srs w ∧
      verify E srs (prove E srs w) =
        openVerify E srs (verifyBatch E (prove E srs w)) :=
  ⟨rfl, rfl, rfl, rfl, rfl⟩

/-- C7: prover challenge derivation is deterministic and a pure function
of the absorbed transcript data: identical witnesses give identical
proofs, equal commitment lists force an equal zeta, and equal commitment
lists together with equal evaluation vectors force equal v and u. -/
theorem prove_challenges_deterministic {F C σ : Type} [CommRing F]
    (E : ExtAlgebra F C σ) (srs : σ) (w₁ w₂ : List (List F)) :
    (w₁ = w₂ → prove (C := C) E srs w₁ = prove E srs w₂) ∧
      (proveCommitments E srs w₁ = proveCommitments E srs w₂ →
        proveZeta E srs w₁ = proveZeta E srs w₂) ∧
      (proveCommitments E srs w₁ = proveCommitments E srs w₂ →
        proveZetaEvals E srs w₁ = proveZetaEvals E srs w₂ →
        proveZetaOmegaEvals E srs w₁ = proveZetaOmegaEvals E srs w₂ →
        proveV E srs w₁ = proveV E srs w₂ ∧ proveU E srs w₁ = proveU E srs w₂) := by
  refine ⟨fun h => by rw [h], fun h => ?_, fun h h₁ h₂ => ?_⟩
  · rw [proveZeta, h]; rfl
  · have habs : proveFrAbsorbed E srs w₁ = proveFrAbsorbed E srs w₂ := by
      rw [proveFrAbsorbed, h, h₁, h₂]; rfl
    exact ⟨by rw [proveV, habs]; rfl, by rw [proveU, habs]; rfl⟩

/-- A concrete instantiation of the external interfaces over the field
with five elements, used to exercise the PIOP and the accumulator on
explicit inputs. -/
def extAlg₀ : ExtAlgebra (ZMod 5) (ZMod 5) Unit where
  interp := id
  evalAt := fun p x => powCombine x p
  commit := fun _ p => p.sum
  commitEvals := fun _ l => l.sum + 1
  qChal := fun l => l.sum + 2
  qDigest := fun l => l.sum + 3
  sChal := fun l n => l.sum + (n : ZMod 5)
  endo := fun x => x + x
  omega := 2

/-- Witness for C7 at a concrete witness column: the challenges agree
when the absorbed data agrees. -/
theorem prove_challenges_deterministic_witness :
    proveZeta extAlg₀ () [[(1 : ZMod 5)]] = proveZeta extAlg₀ () [[1]] ∧
      proveV extAlg₀ () [[(1 : ZMod 5)]] = proveV extAlg₀ () [[1]] ∧
      proveU extAlg₀ () [[(1 : ZMod 5)]] = proveU extAlg₀ () [[1]] :=
  ⟨(prove_challenges_deterministic extAlg₀ () [[1]] [[1]]).2.1 rfl,
    ((prove_challenges_deterministic extAlg₀ () [[1]] [[1]]).2.2 rfl rfl rfl).1,
    ((prove_challenges_deterministic extAlg₀ () [[1]] [[1]]).2.2 rfl rfl rfl).2⟩

/-- Witness for C2 at a concrete accumulator and input batch. -/
theorem fold_entry_and_scenario_witness :
    ((fold extAlg₀ () [[(3 : ZMod 5)]] [[4]]).getD 0 []).getD 0 0 =
      (([[(4 : ZMod 5)]].getD 0 []).getD 0 0) +
        foldChallenge extAlg₀ () [[4]] * (([[(3 : ZMod 5)]].getD 0 []).getD 0 0) :=
  fold_entry_and_scenario.1 extAlg₀ () [[3]] [[4]] 0 0 (by decide) (by decide)
    (by decide) (by decide)

/-! ## The MIPS circuit trace (`optimism/src/mips/trace.rs`) -/

/-- A Rust vector together with its allocated capacity; `push` appends
only below capacity (the tracer never reallocates its witness columns). -/
structure RVec (F : Type) where
  data : List F
  cap : ℕ
deriving DecidableEq

/-- The conditional push of `push_row`: a value is appended to a column
only while the column's length is below its capacity. -/
def pushCell {F : Type} (c : RVec F) (x : F) : RVec F :=
  if c.data.length < c.cap then ⟨c.data ++ [x], c.cap⟩ else c

/-- The witness part of the MIPS `Trace`: the domain size and, per
instruction, the list of witness columns (the constraint and lookup maps
play no role in the row-pushing operations). -/
structure MTrace (I F : Type) where
  domain_size : ℕ
  witness : I → List (RVec F)

/-- `Tracer::new`: every instruction starts with empty columns allocated
with capacity `domain_size` (`Vec::with_capacity(domain_size)`, modelled
as allocating exactly the requested capacity). -/
def trace_new (I F : Type) (domain_size ncols : ℕ) : MTrace I F :=
  { domain_size := domain_size
    witness := fun _ => List.replicate ncols ⟨[], domain_size⟩ }

/-- One `push_row` pass over the columns of one instruction: the i-th row
value is pushed onto the i-th column when below capacity; columns beyond
the row's width are untouched. -/
def pushRowCols {F : Type} (cols : List (RVec F)) (row : List F) : List (RVec F) :=
  List.zipWith pushCell cols row ++ cols.drop row.length

/-- `push_row`: update the pushed instruction's witness columns in place,
leaving every other instruction's witness unchanged. -/
def push_row {I F : Type} [DecidableEq I] (t : MTrace I F) (instr : I)
    (row : List F) : MTrace I F :=
  { domain_size := t.domain_size
    witness := Function.update t.witness instr (pushRowCols (t.witness instr) row) }

/-- `pad_with_row`: compute the number of missing rows from the first
column, then push the given row that many times. -/
def pad_with_row {I F : Type} [DecidableEq I] (t : MTrace I F) (instr : I)
    (row : List F) : MTrace I F :=
  (fun s => push_row s instr row)^[t.domain_size -
    (((t.witness instr).headD ⟨[], 0⟩).data).length] t

/-- `pad_dummy`: when the instruction is in the circuit, pad with the
row formed from the first entry of every column, otherwise do nothing.
The `in_circuit` test lives outside `src/` and is passed as an oracle. -/
def pad_dummy {I F : Type} [DecidableEq I] [Zero F] (t : MTrace I F)
    (inCircuit : I → Bool) (instr : I) : MTrace I F :=
  if inCircuit instr then
    pad_with_row t instr ((t.witness instr).map (fun c => c.data.headD 0))
  else t

/-- Every witness column of every instruction has capacity exactly the
domain size and length at most the domain size. -/
def traceColsOk {I F : Type} (t : MTrace I F) : Prop :=
  ∀ i : I, ∀ c ∈ t.witness i, c.cap = t.domain_size ∧ c.data.length ≤ t.domain_size

lemma pushCell_cap {F : Type} (c : RVec F) (x : F) : (pushCell c x).cap = c.cap := by
  rw [pushCell]
  split <;> rfl

lemma pushCell_len_le {F : Type} (c : RVec F) (x : F)
    (h : c.data.length ≤ c.cap) : (pushCell c x).data.length ≤ c.cap := by
  rw [pushCell]
  split
  · next hlt => simpa using hlt
  · exact h

lemma pushCell_eq_of_full {F : Type} (c : RVec F) (x : F)
    (h : ¬ c.data.length < c.cap) : pushCell c x = c := by
  rw [pushCell, if_neg h]

lemma mem_pushRowCols {F : Type} (ds : ℕ) :
    ∀ (cols : List (RVec F)) (row : List F),
      (∀ c ∈ cols, c.cap = ds ∧ c.data.length ≤ ds) →
      ∀ c ∈ pushRowCols cols row, c.cap = ds ∧ c.data.length ≤ ds := by
  intro cols
  induction cols with
  | nil =>
    intro row _ c hc
    simp [pushRowCols] at hc
  | cons a as ih =>
    intro row h c hc
    cases row with
    | nil =>
      rw [pushRowCols] at hc
      simpa using h c (by simpa using hc)
    | cons x xs =>
      have hstep : pushRowCols (a :: as) (x :: xs) =
          pushCell a x :: pushRowCols as xs := rfl
      rw [hstep] at hc
      rcases List.mem_cons.mp hc with hc | hc
      · subst hc
        have ha := h a (List.mem_cons_self a as)
        refine ⟨(pushCell_cap a x).trans ha.1, ?_⟩
        rw [← ha.1]
        exact pushCell_len_le a x (ha.1 ▸ ha.2)
      · exact ih xs (fun c hcm => h c (List.mem_cons_of_mem a hcm)) c hc

lemma pushRowCols_of_full {F : Type} :
    ∀ (cols : List (RVec F)) (row : List F),
      (∀ c ∈ cols, ¬ c.data.length < c.cap) → pushRowCols cols row = cols := by
  intro cols
  induction cols with
  | nil => intro row _; simp [pushRowCols]
  | cons a as ih =>
    intro row h
    cases row with
    | nil => simp [pushRowCols]
    | cons x xs =>
      have hstep : pushRowCols (a :: as) (x :: xs) =
          pushCell a x :: pushRowCols as xs := rfl
      rw [hstep, pushCell_eq_of_full a x (h a (List.mem_cons_self a as)),
        ih xs (fun c hcm => h c (List.mem_cons_of_mem a hcm))]

lemma push_row_ok {I F : Type} [DecidableEq I] (t : MTrace I F) (instr : I)
    (row : List F) (h : traceColsOk t) : traceColsOk (push_row t instr row) := by
  intro i c hc
  rw [push_row] at hc
  simp only [Function.update_apply] at hc
  by_cases hi : i = instr
  · rw [if_pos hi] at hc
    exact mem_pushRowCols t.domain_size (t.witness instr) row (h instr) c hc
  · rw [if_neg hi] at hc
    exact h i c hc

lemma iterate_push_row_ok {I F : Type} [DecidableEq I] (instr : I) (row : List F) :
    ∀ (k : ℕ) (t : MTrace I F), traceColsOk t →
      traceColsOk ((fun s => push_row s instr row)^[k] t) := by
  intro k
  induction k with
  | zero => intro t h; exact h
  | succ n ih =>
    intro t h
    rw [Function.iterate_succ_apply]
    exact ih (push_row t instr row) (push_row_ok t instr row h)

/-! ## Claim theorem about the MIPS trace -/

/-- C10: freshly created traces have all columns empty with capacity the
domain size; `push_row` on an instruction whose columns are full leaves
the trace unchanged; and `push_row`, `pad_with_row` and `pad_dummy` all
preserve the invariant that no witness column exceeds `domain_size`
entries (given every column's capacity is the domain size). -/
theorem trace_columns_bounded {I F : Type} [DecidableEq I] [Zero F] :
    (∀ ds ncols : ℕ, traceColsOk (trace_new I F ds ncols)) ∧
      (∀ (t : MTrace I F) (instr : I) (row : List F),
        (∀ c ∈ t.witness instr, c.cap = t.domain_size ∧
          c.data.length = t.domain_size) →
        push_row t instr row = t) ∧
      (∀ (t : MTrace I F) (instr : I) (row : List F),
        traceColsOk t → traceColsOk (push_row t instr row)) ∧
      (∀ (t : MTrace I F) (instr : I) (row : List F),
        traceColsOk t → traceColsOk (pad_with_row t instr row)) ∧
      (∀ (t : MTrace I F) (inCircuit : I → Bool) (instr : I),
        traceColsOk t → traceColsOk (pad_dummy t inCircuit instr)) := by
  refine ⟨?_, ?_, push_row_ok, ?_, ?_⟩
  · intro ds ncols i c hc
    rw [trace_new] at hc
    simp only at hc
    have := List.eq_of_mem_replicate hc
    subst this
    exact ⟨rfl, by simp⟩
  · intro t instr row h
    obtain ⟨ds, wit⟩ := t
    rw [push_row]
    simp only
    congr 1
    rw [pushRowCols_of_full (wit instr) row
      (fun c hcm => by rw [(h c hcm).1, (h c hcm).2]; exact lt_irrefl ds)]
    exact Function.update_eq_self instr wit
  · intro t instr row h
    exact iterate_push_row_ok instr row _ t h
  · intro t inCircuit instr h
    rw [pad_dummy]
    split
    · exact iterate_push_row_ok instr _ _ t h
    · exact h

/-- A concrete one-instruction trace whose single column is full. -/
def fullTrace : MTrace Unit (ZMod 5) where
  domain_size := 1
  witness := fun _ => [⟨[0], 1⟩]

/-- Witness for C10: a fresh two-row three-column trace satisfies the
bound, and pushing a row onto a full trace leaves it unchanged. -/
theorem trace_columns_bounded_witness :
    traceColsOk (trace_new Unit (ZMod 5) 2 3) ∧
      push_row fullTrace () [4] = fullTrace :=
  ⟨trace_columns_bounded.1 2 3,
    trace_columns_bounded.2.1 fullTrace () [4] (fun c hc => by
      rw [List.eq_of_mem_singleton hc]
      exact ⟨rfl, rfl⟩)⟩

end S2P
